import Mathlib

/-!
Verification of the hidden-Markov-model estimation pipeline described in the
repository documentation (notebook `docs/source/notebooks/hmm.ipynb`).  The
implementation itself (the `deeptime` library) is not part of the repository
sources, so each component is modelled from the specification text and the
notebook, faithful to their words, and the claims are settled against these
models.  All arithmetic is over `ℚ` (exact arithmetic); floating-point
tolerances become exact rational tolerances.
-/

namespace HMMSpec

/-- Error taxonomy of section 7 of the specification. -/
inductive HmmError where
  | invalidModel
  | numerical
  | singularProjection
  | configuration
  | unknownQuantity
  | shapeMismatch
deriving DecidableEq, Repr

/-- Modelled from the spec: validity check of a single probability row used by
`TransitionModel` construction (section 4.1): the row sums to 1 within the
tolerance `eps` and contains no negative entry. -/
def rowValid (eps : ℚ) (row : List ℚ) : Bool :=
  decide (|row.sum - 1| ≤ eps) && row.all (fun x => decide (0 ≤ x))

/-- Modelled from the spec: a `TransitionModel` is a matrix of rational rows
(data model, section 3), stored row-major. -/
structure TransitionModel where
  matrix : List (List ℚ)
deriving DecidableEq, Repr

/-- Modelled from the spec: validated construction of a `TransitionModel`
(section 4.1). Construction fails with `InvalidModelError` if any row does not
sum to 1 within tolerance `eps` or contains a negative entry. -/
def TransitionModel.make (eps : ℚ) (mat : List (List ℚ)) :
    Except HmmError TransitionModel :=
  if mat.all (rowValid eps) then .ok ⟨mat⟩ else .error .invalidModel

/-- The propositional reading of `rowValid`. -/
theorem rowValid_iff (eps : ℚ) (row : List ℚ) :
    rowValid eps row = true ↔ |row.sum - 1| ≤ eps ∧ ∀ x ∈ row, 0 ≤ x := by
  simp [rowValid, List.all_eq_true]

/-- Row-normalization, the operation through which the M-step and the
re-estimation procedures produce fresh probability rows (sections 4.2, 4.4). -/
def normalizeRow (row : List ℚ) : List ℚ :=
  row.map (fun x => x / row.sum)

/-- Every element of a list of non-negative rationals is at most the sum. -/
theorem le_sum_of_mem {row : List ℚ} (hx : ∀ x ∈ row, 0 ≤ x) :
    ∀ x ∈ row, x ≤ row.sum := by
  induction row with
  | nil => intro x hmem; cases hmem
  | cons a l ih =>
      intro x hmem
      rcases List.mem_cons.mp hmem with rfl | hmem
      · have hl : 0 ≤ l.sum := by
          apply List.sum_nonneg
          intro y hy
          exact hx y (List.mem_cons_of_mem _ hy)
        simp only [List.sum_cons]
        linarith
      · have ha : 0 ≤ a := hx a (List.mem_cons_self _ _)
        have := ih (fun y hy => hx y (List.mem_cons_of_mem _ hy)) x hmem
        simp only [List.sum_cons]
        linarith

/-- The result of row-normalizing a non-negative row with positive sum: every
entry lies in `[0,1]` and the entries sum to exactly 1. -/
theorem normalizeRow_stochastic (row : List ℚ) (hpos : 0 < row.sum)
    (hnn : ∀ x ∈ row, 0 ≤ x) :
    (normalizeRow row).sum = 1 ∧
      ∀ y ∈ normalizeRow row, 0 ≤ y ∧ y ≤ 1 := by
  constructor
  · have hne : row.sum ≠ 0 := ne_of_gt hpos
    have hmap : (row.map (fun x => x * row.sum⁻¹)).sum
        = (row.map id).sum * row.sum⁻¹ := List.sum_map_mul_right row id row.sum⁻¹
    simp only [normalizeRow, div_eq_mul_inv, hmap, List.map_id]
    exact mul_inv_cancel₀ hne
  · intro y hy
    rcases List.mem_map.mp hy with ⟨x, hx, rfl⟩
    constructor
    · exact div_nonneg (hnn x hx) (le_of_lt hpos)
    · rw [div_le_one hpos]
      exact le_sum_of_mem hnn x hx

/-- C4: `TransitionModel` construction succeeds exactly on matrices whose rows
all sum to 1 within tolerance `eps` with non-negative entries, and fails with
`InvalidModelError` exactly when some row violates one of those conditions. -/
theorem transitionModel_make_spec (eps : ℚ) (mat : List (List ℚ)) :
    (TransitionModel.make eps mat = .ok ⟨mat⟩ ↔
      ∀ row ∈ mat, |row.sum - 1| ≤ eps ∧ ∀ x ∈ row, 0 ≤ x) ∧
    (TransitionModel.make eps mat = .error .invalidModel ↔
      ¬ ∀ row ∈ mat, |row.sum - 1| ≤ eps ∧ ∀ x ∈ row, 0 ≤ x) := by
  have hall : mat.all (rowValid eps) = true ↔
      ∀ row ∈ mat, |row.sum - 1| ≤ eps ∧ ∀ x ∈ row, 0 ≤ x := by
    rw [List.all_eq_true]
    constructor
    · intro h row hrow
      exact (rowValid_iff eps row).mp (h row hrow)
    · intro h row hrow
      exact (rowValid_iff eps row).mpr (h row hrow)
  constructor
  · constructor
    · intro hok
      apply hall.mp
      by_contra hbad
      have : TransitionModel.make eps mat = .error .invalidModel := by
        unfold TransitionModel.make
        rw [if_neg]
        intro hcontra
        exact hbad (hcontra)
      rw [this] at hok
      cases hok
    · intro h
      unfold TransitionModel.make
      rw [if_pos (hall.mpr h)]
  · constructor
    · intro herr hgood
      have : TransitionModel.make eps mat = .ok ⟨mat⟩ := by
        unfold TransitionModel.make
        rw [if_pos (hall.mpr hgood)]
      rw [this] at herr
      cases herr
    · intro hbad
      unfold TransitionModel.make
      rw [if_neg]
      intro hcontra
      exact hbad (hall.mp hcontra)

/-- Witness for C4: the identity-like matrix `[[1]]` is accepted and the
matrix `[[2]]` (row sum 2) is rejected, instances of
`transitionModel_make_spec`. -/
theorem transitionModel_make_spec_witness :
    TransitionModel.make 0 [[(1 : ℚ)]] = .ok ⟨[[(1 : ℚ)]]⟩ ∧
      TransitionModel.make 0 [[(2 : ℚ)]] = .error .invalidModel := by
  constructor
  · exact (transitionModel_make_spec 0 [[(1 : ℚ)]]).1.mpr (by norm_num)
  · exact (transitionModel_make_spec 0 [[(2 : ℚ)]]).2.mpr (by norm_num)

/-- C2 counterexample: with the spec's example tolerance `ε_row = 1e-8`, the
1×1 matrix `[[1 + 1/200000000]]` passes construction (its row sum is within
`ε_row` of 1 and has no negative entry), yet its entry exceeds 1 — refuting
"every entry lies in [0,1]" for constructed instances. -/
theorem probRow_entries_counterexample :
    TransitionModel.make (1 / 100000000) [[1 + 1 / 200000000]] =
      .ok ⟨[[1 + 1 / 200000000]]⟩ ∧
      ¬ ((1 : ℚ) + 1 / 200000000 ≤ 1) := by
  constructor
  · apply (transitionModel_make_spec _ _).1.mpr
    intro row hrow
    simp only [List.mem_singleton] at hrow
    subst hrow
    constructor
    · rw [abs_le]
      constructor <;> norm_num
    · intro x hx
      simp only [List.mem_singleton] at hx
      subst hx
      norm_num
  · norm_num

/-- C2 (amended): every `TransitionModel` accepted by validated construction
has every row summing to 1 within `eps` with entries in `[0, 1 + eps]`
(not `[0,1]`: the sum tolerance lets an entry exceed 1 by up to `eps`), and
the row-normalization operation through which re-estimation produces fresh
rows yields rows summing to exactly 1 with entries in `[0,1]`. -/
theorem probRow_invariant (eps : ℚ) (mat : List (List ℚ)) (t : TransitionModel)
    (hmk : TransitionModel.make eps mat = .ok t) :
    (∀ row ∈ t.matrix, |row.sum - 1| ≤ eps ∧
      ∀ x ∈ row, 0 ≤ x ∧ x ≤ 1 + eps) ∧
    (∀ row : List ℚ, 0 < row.sum → (∀ x ∈ row, 0 ≤ x) →
      (normalizeRow row).sum = 1 ∧ ∀ y ∈ normalizeRow row, 0 ≤ y ∧ y ≤ 1) := by
  constructor
  · have hok : TransitionModel.make eps mat = .ok ⟨mat⟩ := by
      unfold TransitionModel.make at hmk ⊢
      by_cases hc : mat.all (rowValid eps) = true
      · rw [if_pos hc]
      · rw [if_neg (fun h => hc h)] at hmk
        cases hmk
    have hmat : t = ⟨mat⟩ := by
      rw [hok] at hmk
      cases hmk
      rfl
    subst hmat
    intro row hrow
    have hvalid := (transitionModel_make_spec eps mat).1.mp hok row hrow
    refine ⟨hvalid.1, fun x hx => ⟨hvalid.2 x hx, ?_⟩⟩
    have hle : x ≤ row.sum := le_sum_of_mem hvalid.2 x hx
    have : row.sum ≤ 1 + eps := by
      have := abs_le.mp hvalid.1
      linarith [this.2]
    linarith
  · intro row hpos hnn
    exact normalizeRow_stochastic row hpos hnn

/-- Witness for C2 (amended): the matrix `[[1 + 1/200000000]]` from the
counterexample instantiated in `probRow_invariant`, and normalization of
`[1, 3]`. -/
theorem probRow_invariant_witness :
    ((1 : ℚ) + 1 / 200000000 ≤ 1 + 1 / 100000000) ∧
      (normalizeRow [(1 : ℚ), 3]).sum = 1 := by
  have h := probRow_invariant (1 / 100000000) [[1 + 1 / 200000000]]
    ⟨[[1 + 1 / 200000000]]⟩ (probRow_entries_counterexample).1
  constructor
  · exact ((h.1 [1 + 1 / 200000000] (by simp)).2 (1 + 1 / 200000000) (by simp)).2
  · exact (h.2 [(1 : ℚ), 3] (by norm_num) (by
      intro x hx
      rcases List.mem_cons.mp hx with rfl | hx
      · norm_num
      · simp only [List.mem_singleton] at hx
        subst hx
        norm_num)).1

/-- Modelled from the spec and notebook: a `HiddenMarkovModel` composes a
hidden transition matrix, an emission (output) matrix and an initial
hidden-state distribution (data model, section 3; notebook cell 1). -/
structure HiddenMarkovModel where
  transition : List (List ℚ)
  emission : List (List ℚ)
  initialDistribution : List ℚ
deriving DecidableEq, Repr

/-- Modelled from the spec and notebook: constructing an HMM from a transition
matrix and an emission matrix, with an optional initial distribution
(notebook: `hmm.HiddenMarkovModel(P, E)`; "The initial distribution defaults
to a uniform distribution"). -/
def HiddenMarkovModel.ofMatrices (P E : List (List ℚ))
    (pi0 : Option (List ℚ)) : HiddenMarkovModel :=
  { transition := P
    emission := E
    initialDistribution := pi0.getD (List.replicate P.length ((1 : ℚ) / P.length)) }

/-- Number of hidden states of the model (notebook: `n_hidden_states`). -/
def HiddenMarkovModel.nHiddenStates (M : HiddenMarkovModel) : ℕ :=
  M.transition.length

/-- C9: constructing a `HiddenMarkovModel` from only a transition matrix and
an emission matrix yields the uniform initial distribution: `n` entries, each
equal to `1/n`, and (for `n ≥ 1`) summing to 1. -/
theorem ofMatrices_default_uniform (P E : List (List ℚ)) (n : ℕ)
    (hn : P.length = n) (hpos : 0 < n) :
    (HiddenMarkovModel.ofMatrices P E none).initialDistribution =
        List.replicate n ((1 : ℚ) / n) ∧
      (∀ x ∈ (HiddenMarkovModel.ofMatrices P E none).initialDistribution,
        x = (1 : ℚ) / n) ∧
      (HiddenMarkovModel.ofMatrices P E none).initialDistribution.sum = 1 := by
  have hrepl : (HiddenMarkovModel.ofMatrices P E none).initialDistribution =
      List.replicate n ((1 : ℚ) / n) := by
    simp [HiddenMarkovModel.ofMatrices, hn]
  refine ⟨hrepl, ?_, ?_⟩
  · intro x hx
    rw [hrepl] at hx
    exact List.eq_of_mem_replicate hx
  · rw [hrepl, List.sum_replicate, nsmul_eq_mul]
    have hne : (n : ℚ) ≠ 0 := Nat.cast_ne_zero.mpr hpos.ne'
    field_simp

/-- Witness for C9: a two-state model gets initial distribution `[1/2, 1/2]`
summing to 1. -/
theorem ofMatrices_default_uniform_witness :
    (HiddenMarkovModel.ofMatrices [[(1 : ℚ), 0], [0, 1]] [[1], [1]]
        none).initialDistribution = List.replicate 2 ((1 : ℚ) / 2) ∧
      (HiddenMarkovModel.ofMatrices [[(1 : ℚ), 0], [0, 1]] [[1], [1]]
        none).initialDistribution.sum = 1 := by
  have h := ofMatrices_default_uniform [[(1 : ℚ), 0], [0, 1]] [[1], [1]] 2
    (by rfl) (by norm_num)
  refine ⟨?_, h.2.2⟩
  rw [h.1]
  norm_num

/-- Modelled from the spec: a categorical draw from a probability row given a
uniform random value `u` — the first index whose cumulative probability
exceeds `u`, the last index as fallback (sections 4.1 `sampleNext`, 4.2
`sample`). -/
def categoricalAux (u : ℚ) : ℚ → ℕ → List ℚ → ℕ
  | _, i, [] => i
  | acc, i, p :: rest =>
      if u < acc + p then i
      else if rest.isEmpty then i
      else categoricalAux u (acc + p) (i + 1) rest

/-- Categorical draw from a probability row, entry point. -/
def categorical (row : List ℚ) (u : ℚ) : ℕ :=
  categoricalAux u 0 0 row

/-- Modelled from the spec: `simulate` main loop, carrying the time index `t`,
the current hidden state `s` and the remaining step count; each step records
the hidden state, draws the observation from that state's emission row, and
draws the next hidden state from that state's transition row (notebook:
`ground_truth.simulate(2000)`; design note in section 9: an explicit loop
carrying accumulator state, RNG threaded explicitly). -/
def simulateLoop (M : HiddenMarkovModel) (u : ℕ → ℚ) :
    ℕ → ℕ → ℕ → List ℕ × List ℕ
  | _, _, 0 => ([], [])
  | t, s, rem + 1 =>
      let y := categorical (M.emission.getD s []) (u (2 * t + 1))
      let nxt := categorical (M.transition.getD s []) (u (2 * t + 2))
      let p := simulateLoop M u (t + 1) nxt rem
      (s :: p.1, y :: p.2)

/-- Modelled from the spec: `simulate(T)` draws the initial hidden state from
the initial distribution and then runs the loop for `T` steps, returning the
hidden trajectory and the observation trajectory. -/
def HiddenMarkovModel.simulate (M : HiddenMarkovModel) (u : ℕ → ℚ) (T : ℕ) :
    List ℕ × List ℕ :=
  simulateLoop M u 0 (categorical M.initialDistribution (u 0)) T

/-- Invariant of the simulation loop: both produced trajectories have length
equal to the remaining step count, and each observation is the categorical
draw from the emission row of the hidden state at the same time index. -/
theorem simulateLoop_spec (M : HiddenMarkovModel) (u : ℕ → ℚ) :
    ∀ rem t s,
      (simulateLoop M u t s rem).1.length = rem ∧
      (simulateLoop M u t s rem).2.length = rem ∧
      ∀ i < rem,
        (simulateLoop M u t s rem).2.getD i 0 =
          categorical
            (M.emission.getD ((simulateLoop M u t s rem).1.getD i 0) [])
            (u (2 * (t + i) + 1)) := by
  intro rem
  induction rem with
  | zero =>
      intro t s
      refine ⟨rfl, rfl, ?_⟩
      intro i hi
      cases hi
  | succ rem ih =>
      intro t s
      have hstep : simulateLoop M u t s (rem + 1) =
          (s :: (simulateLoop M u (t + 1)
              (categorical (M.transition.getD s []) (u (2 * t + 2))) rem).1,
            categorical (M.emission.getD s []) (u (2 * t + 1)) ::
              (simulateLoop M u (t + 1)
                (categorical (M.transition.getD s []) (u (2 * t + 2))) rem).2) := by
        rfl
      rw [hstep]
      obtain ⟨ih1, ih2, ih3⟩ :=
        ih (t + 1) (categorical (M.transition.getD s []) (u (2 * t + 2)))
      refine ⟨by simpa using ih1, by simpa using ih2, ?_⟩
      intro i hi
      cases i with
      | zero => simp
      | succ j =>
          have hj : j < rem := Nat.lt_of_succ_lt_succ hi
          have := ih3 j hj
          simp only [List.getD_cons_succ]
          rw [this]
          have harith : 2 * (t + 1 + j) + 1 = 2 * (t + (j + 1)) + 1 := by ring
          rw [harith]

/-- C10: for every model, RNG stream and requested length `T ≥ 1`,
`simulate(T)` returns a hidden trajectory and an observation trajectory of
length exactly `T`, and the observation at each time index is drawn (by the
categorical sampler) from the emission row of the hidden state at the same
index. -/
theorem simulate_spec (M : HiddenMarkovModel) (u : ℕ → ℚ) (T : ℕ)
    (hT : 1 ≤ T) :
    (M.simulate u T).1.length = T ∧
    (M.simulate u T).2.length = T ∧
    ∀ i < T,
      (M.simulate u T).2.getD i 0 =
        categorical (M.emission.getD ((M.simulate u T).1.getD i 0) [])
          (u (2 * i + 1)) := by
  obtain ⟨h1, h2, h3⟩ := simulateLoop_spec M u T 0
    (categorical M.initialDistribution (u 0))
  refine ⟨h1, h2, ?_⟩
  intro i hi
  have := h3 i hi
  simpa [HiddenMarkovModel.simulate] using this

/-- Witness for C10: the two-state ground-truth model of the notebook,
simulated for 3 steps with the constant-zero RNG stream, yields trajectories
of length 3. -/
theorem simulate_spec_witness :
    ((HiddenMarkovModel.ofMatrices [[(19 : ℚ)/20, 1/20], [3/10, 7/10]]
        [[1/10, 1/10, 4/5], [1/2, 1/2, 0]] none).simulate (fun _ => 0) 3).1.length = 3 ∧
    ((HiddenMarkovModel.ofMatrices [[(19 : ℚ)/20, 1/20], [3/10, 7/10]]
        [[1/10, 1/10, 4/5], [1/2, 1/2, 0]] none).simulate (fun _ => 0) 3).2.length = 3 := by
  have h := simulate_spec (HiddenMarkovModel.ofMatrices
    [[(19 : ℚ)/20, 1/20], [3/10, 7/10]]
    [[1/10, 1/10, 4/5], [1/2, 1/2, 0]] none) (fun _ => 0) 3 (by norm_num)
  exact ⟨h.1, h.2.1⟩

/-- Modelled from the spec: the EM driver loop of `MaximumLikelihoodEstimator`
(section 4.4). The E-step/M-step pair is abstracted as `step` and
log-likelihood evaluation as `ll`; each iteration produces the next model and
its log-likelihood, appends it to the trace, declares convergence when the
improvement falls below `epsLL` — a decrease within the tolerance `tolDec`
counts as convergence — and fails with `NumericalError` on a decrease beyond
`tolDec`; exhausted fuel is the iteration cap. The trace accumulator is kept
reversed and reversed back on return. -/
def emIterate {α : Type} (step : α → α) (ll : α → ℚ) (epsLL tolDec : ℚ) :
    ℕ → α → ℚ → List ℚ → Except HmmError (α × List ℚ)
  | 0, m, _, trace => .ok (m, trace.reverse)
  | fuel + 1, m, prev, trace =>
      let next := step m
      let cur := ll next
      if cur - prev < -tolDec then .error .numerical
      else if cur - prev < epsLL then .ok (next, (cur :: trace).reverse)
      else emIterate step ll epsLL tolDec fuel next cur (cur :: trace)

/-- Modelled from the spec: run the EM loop from an initial model, the trace
starting with the initial model's log-likelihood. -/
def emRun {α : Type} (step : α → α) (ll : α → ℚ) (epsLL tolDec : ℚ)
    (maxIter : ℕ) (m0 : α) : Except HmmError (α × List ℚ) :=
  emIterate step ll epsLL tolDec maxIter m0 (ll m0) [ll m0]

/-- Appending a value related to the head of the accumulator preserves the
chain property of the reversed accumulator. -/
theorem chain_reverse_cons {R : ℚ → ℚ → Prop} {acc : List ℚ} {prev cur : ℚ}
    (hhead : acc.head? = some prev) (hchain : List.Chain' R acc.reverse)
    (hrel : R prev cur) : List.Chain' R ((cur :: acc).reverse) := by
  rw [List.reverse_cons]
  rw [List.chain'_append]
  refine ⟨hchain, List.chain'_singleton cur, ?_⟩
  intro x hx y hy
  rw [List.getLast?_reverse, hhead] at hx
  simp only [Option.mem_def, Option.some.injEq] at hx
  simp only [List.head?_cons, Option.mem_def, Option.some.injEq] at hy
  subst hx
  subst hy
  exact hrel

/-- Invariant of the EM loop: whenever the loop returns successfully, the
returned trace extends the reversed accumulator and is a chain under
"decreases by at most `tolDec`". -/
theorem emIterate_trace_chain {α : Type} (step : α → α) (ll : α → ℚ)
    (epsLL tolDec : ℚ) :
    ∀ (fuel : ℕ) (m : α) (prev : ℚ) (acc : List ℚ) (res : α) (trace : List ℚ),
      acc.head? = some prev →
      List.Chain' (fun a b => a - tolDec ≤ b) acc.reverse →
      emIterate step ll epsLL tolDec fuel m prev acc = .ok (res, trace) →
      List.Chain' (fun a b => a - tolDec ≤ b) trace := by
  intro fuel
  induction fuel with
  | zero =>
      intro m prev acc res trace _ hchain heq
      simp only [emIterate] at heq
      cases heq
      exact hchain
  | succ fuel ih =>
      intro m prev acc res trace hhead hchain heq
      simp only [emIterate] at heq
      by_cases hfat : ll (step m) - prev < -tolDec
      · rw [if_pos hfat] at heq
        cases heq
      · rw [if_neg hfat] at heq
        have hrel : prev - tolDec ≤ ll (step m) := by
          push_neg at hfat
          linarith
        by_cases hconv : ll (step m) - prev < epsLL
        · rw [if_pos hconv] at heq
          cases heq
          exact chain_reverse_cons hhead hchain hrel
        · rw [if_neg hconv] at heq
          exact ih (step m) (ll (step m)) (ll (step m) :: acc) res trace rfl
            (chain_reverse_cons hhead hchain hrel) heq

/-- C1: whenever the EM loop returns a model and a log-likelihood trace, each
consecutive pair of trace values decreases by at most the tolerance `tolDec`
(the trace is non-decreasing within the numerical tolerance); and a decrease
that stays within the tolerance is treated as convergence — the loop returns
successfully rather than failing. -/
theorem em_trace_monotone {α : Type} (step : α → α) (ll : α → ℚ)
    (epsLL tolDec : ℚ) (maxIter : ℕ) (m0 : α) (res : α) (trace : List ℚ)
    (hok : emRun step ll epsLL tolDec maxIter m0 = .ok (res, trace)) :
    List.Chain' (fun a b => a - tolDec ≤ b) trace ∧
    (∀ (m : α) (prev : ℚ) (acc : List ℚ) (fuel : ℕ),
      -tolDec ≤ ll (step m) - prev → ll (step m) - prev < 0 → 0 ≤ epsLL →
      emIterate step ll epsLL tolDec (fuel + 1) m prev acc =
        .ok (step m, (ll (step m) :: acc).reverse)) := by
  constructor
  · exact emIterate_trace_chain step ll epsLL tolDec maxIter m0 (ll m0)
      [ll m0] res trace rfl (by simp) hok
  · intro m prev acc fuel hwithin hdec heps
    simp only [emIterate]
    rw [if_neg (by linarith), if_pos (by linarith)]

/-- Witness for C1: with `step n = n + 1` on `ℕ`, `ll n = -n`, tolerance
`tolDec = 2` and convergence threshold `epsLL = 1`, the run from 0 stops at
the first iteration (a decrease of 1, within tolerance) with trace
`[0, -1]`, which is a chain under "decreases by at most 2". -/
theorem em_trace_monotone_witness :
    List.Chain' (fun a b => a - 2 ≤ b) [(0 : ℚ), -1] ∧
      emIterate (fun n => n + 1) (fun n => -(n : ℚ)) 1 2 1 0 0 [0] =
        .ok (1, [(0 : ℚ), -1]) := by
  have hrun : emRun (fun n => n + 1) (fun n => -(n : ℚ)) 1 2 3 0 =
      .ok (1, [(0 : ℚ), -1]) := by
    simp only [emRun, emIterate]
    norm_num
  have h := em_trace_monotone (fun n => n + 1) (fun n => -(n : ℚ)) 1 2 3 0
    1 [(0 : ℚ), -1] hrun
  refine ⟨h.1, ?_⟩
  have h2 := h.2 0 0 [0] 0 (by norm_num) (by norm_num) (by norm_num)
  simpa using h2

/-- Modelled from the spec: the Gibbs sampling loop of `BayesianSampler`
(section 4.6). One raw step produces the next model via `gibbsStep` (hidden
path, transition and output resampling are abstracted into it); `i` is the
raw-step counter; after burn-in, every `thin`-th resulting model is appended
to the ensemble accumulator, kept reversed. -/
def bayesianFitAux {α : Type} (gibbsStep : α → α) (burnIn thin : ℕ) :
    ℕ → ℕ → α → List α → List α
  | 0, _, _, ens => ens.reverse
  | rem + 1, i, m, ens =>
      let next := gibbsStep m
      if burnIn < i + 1 ∧ (i + 1 - burnIn) % thin = 0 then
        bayesianFitAux gibbsStep burnIn thin rem (i + 1) next (next :: ens)
      else
        bayesianFitAux gibbsStep burnIn thin rem (i + 1) next ens

/-- Modelled from the spec: the posterior ensemble holds the reference model
and the ordered accepted samples (section 4.7). -/
structure PosteriorEnsemble (α : Type) where
  reference : α
  samples : List α

/-- Modelled from the spec: run the Gibbs sampler for `nSteps` raw steps from
the reference model `m0`. -/
def bayesianFit {α : Type} (gibbsStep : α → α) (burnIn thin nSteps : ℕ)
    (m0 : α) : PosteriorEnsemble α :=
  ⟨m0, bayesianFitAux gibbsStep burnIn thin nSteps 0 m0 []⟩

/-- The indices of the raw steps whose models are retained. -/
def keptIndices (burnIn thin nSteps : ℕ) : List ℕ :=
  ((List.range nSteps).map (fun j => j + 1)).filter
    (fun j => decide (burnIn < j) && decide ((j - burnIn) % thin = 0))

/-- Number of retained raw-step indices among the next `rem` steps after
step counter `i`. -/
def keptCount (burnIn thin : ℕ) : ℕ → ℕ → ℕ
  | 0, _ => 0
  | rem + 1, i =>
      (if burnIn < i + 1 ∧ (i + 1 - burnIn) % thin = 0 then 1 else 0) +
        keptCount burnIn thin rem (i + 1)

/-- The sampler loop appends exactly the models of the kept raw-step indices,
in order, to the reversed accumulator. -/
theorem bayesianFitAux_eq {α : Type} (gibbsStep : α → α) (burnIn thin : ℕ)
    (m0 : α) :
    ∀ (rem i : ℕ) (ens : List α),
      bayesianFitAux gibbsStep burnIn thin rem i (gibbsStep^[i] m0) ens =
        ens.reverse ++
          (((List.range rem).map (fun j => i + 1 + j)).filter
            (fun j => decide (burnIn < j) && decide ((j - burnIn) % thin = 0))).map
            (fun j => gibbsStep^[j] m0) := by
  intro rem
  induction rem with
  | zero =>
      intro i ens
      simp [bayesianFitAux]
  | succ rem ih =>
      intro i ens
      have hrange : (List.range (rem + 1)).map (fun j => i + 1 + j) =
          (i + 1) :: ((List.range rem).map (fun j => i + 2 + j)) := by
        rw [List.range_succ_eq_map]
        simp only [List.map_cons, Nat.add_zero, List.map_map]
        congr 1
        apply List.map_congr_left
        intro a _
        simp only [Function.comp_apply]
        omega
      have hnext : gibbsStep (gibbsStep^[i] m0) = gibbsStep^[i + 1] m0 := by
        rw [Function.iterate_succ_apply']
      simp only [bayesianFitAux]
      by_cases hc : burnIn < i + 1 ∧ (i + 1 - burnIn) % thin = 0
      · rw [if_pos hc, hnext, ih (i + 1) (gibbsStep^[i + 1] m0 :: ens)]
        rw [hrange]
        rw [List.filter_cons]
        have : (decide (burnIn < i + 1) && decide ((i + 1 - burnIn) % thin = 0)) = true := by
          simp [hc.1, hc.2]
        rw [if_pos this]
        simp only [List.map_cons, List.reverse_cons]
        rw [List.append_assoc]
        congr 2
      · rw [if_neg hc, hnext, ih (i + 1) ens]
        rw [hrange]
        rw [List.filter_cons]
        have : (decide (burnIn < i + 1) && decide ((i + 1 - burnIn) % thin = 0)) = false := by
          rcases Decidable.not_and_iff_or_not.mp hc with h | h
          · simp [h]
          · simp [h]
        rw [if_neg (by simp [this])]

/-- Counting kept indices matches the closed formula on Nat division. -/
theorem keptCount_formula (burnIn thin : ℕ) (hthin : 0 < thin) :
    ∀ (rem i : ℕ),
      keptCount burnIn thin rem i + (i - burnIn) / thin =
        (i + rem - burnIn) / thin := by
  intro rem
  induction rem with
  | zero => intro i; simp [keptCount]
  | succ rem ih =>
      intro i
      have hkey : (if burnIn < i + 1 ∧ (i + 1 - burnIn) % thin = 0 then 1 else 0) +
          (i - burnIn) / thin = (i + 1 - burnIn) / thin := by
        by_cases hb : burnIn < i + 1
        · have hd : i + 1 - burnIn = (i - burnIn) + 1 := by omega
          rw [hd]
          rw [Nat.succ_div]
          by_cases hdvd : thin ∣ (i - burnIn) + 1
          · have hmod : ((i - burnIn) + 1) % thin = 0 :=
              Nat.mod_eq_zero_of_dvd hdvd
            rw [if_pos hdvd, if_pos ⟨hb, hmod⟩]
            omega
          · have hmod : ¬ (((i - burnIn) + 1) % thin = 0) := by
              intro hcontra
              exact hdvd (Nat.dvd_of_mod_eq_zero hcontra)
            rw [if_neg hdvd, if_neg (fun hcontra => hmod hcontra.2)]
            omega
        · have h0 : i + 1 - burnIn = 0 := by omega
          have h0' : i - burnIn = 0 := by omega
          rw [if_neg (fun hcontra => hb hcontra.1), h0, h0']
          omega
      calc keptCount burnIn thin (rem + 1) i + (i - burnIn) / thin
          = keptCount burnIn thin rem (i + 1) +
              ((if burnIn < i + 1 ∧ (i + 1 - burnIn) % thin = 0 then 1 else 0) +
                (i - burnIn) / thin) := by
            simp only [keptCount]
            omega
        _ = keptCount burnIn thin rem (i + 1) + (i + 1 - burnIn) / thin := by
            rw [hkey]
        _ = (i + 1 + rem - burnIn) / thin := ih (i + 1)
        _ = (i + (rem + 1) - burnIn) / thin := by
            congr 1
            omega

/-- The kept-index list has length `keptCount`. -/
theorem keptIndices_length (burnIn thin : ℕ) :
    ∀ (rem i : ℕ),
      (((List.range rem).map (fun j => i + 1 + j)).filter
        (fun j => decide (burnIn < j) && decide ((j - burnIn) % thin = 0))).length =
        keptCount burnIn thin rem i := by
  intro rem
  induction rem with
  | zero => intro i; simp [keptCount]
  | succ rem ih =>
      intro i
      have hrange : (List.range (rem + 1)).map (fun j => i + 1 + j) =
          (i + 1) :: ((List.range rem).map (fun j => i + 2 + j)) := by
        rw [List.range_succ_eq_map]
        simp only [List.map_cons, Nat.add_zero, List.map_map]
        congr 1
        apply List.map_congr_left
        intro a _
        simp only [Function.comp_apply]
        omega
      rw [hrange, List.filter_cons]
      have hih : (((List.range rem).map (fun j => i + 2 + j)).filter
          (fun j => decide (burnIn < j) && decide ((j - burnIn) % thin = 0))).length =
          keptCount burnIn thin rem (i + 1) := by
        have := ih (i + 1)
        have hmaps : (List.range rem).map (fun j => i + 1 + 1 + j) =
            (List.range rem).map (fun j => i + 2 + j) := by
          apply List.map_congr_left
          intro a _
          omega
        rw [hmaps] at this
        exact this
      by_cases hc : burnIn < i + 1 ∧ (i + 1 - burnIn) % thin = 0
      · rw [if_pos (by simp [hc.1, hc.2])]
        simp only [List.length_cons, keptCount, if_pos hc, hih]
        omega
      · have : (decide (burnIn < i + 1) && decide ((i + 1 - burnIn) % thin = 0)) = false := by
          rcases Decidable.not_and_iff_or_not.mp hc with h | h
          · simp [h]
          · simp [h]
        rw [if_neg (by simp [this])]
        simp only [keptCount, if_neg hc, hih]
        omega

/-- C6: the Gibbs run retains exactly the every-`thin`-th post-burn-in models
(the models at raw steps `burnIn + thin, burnIn + 2·thin, …`), and the
ensemble size is `(nSteps - burnIn) / thin` — in particular 90 retained
samples for `burnIn = 100`, `thin = 10`, `nSteps = 1000`. -/
theorem bayesianFit_thinning {α : Type} (gibbsStep : α → α)
    (burnIn thin nSteps : ℕ) (m0 : α) (hthin : 0 < thin) :
    (bayesianFit gibbsStep burnIn thin nSteps m0).samples =
      (keptIndices burnIn thin nSteps).map (fun j => gibbsStep^[j] m0) ∧
    (bayesianFit gibbsStep burnIn thin nSteps m0).samples.length =
      (nSteps - burnIn) / thin := by
  have hiter0 : (gibbsStep^[0] m0) = m0 := rfl
  have heq : (bayesianFit gibbsStep burnIn thin nSteps m0).samples =
      (((List.range nSteps).map (fun j => 0 + 1 + j)).filter
        (fun j => decide (burnIn < j) && decide ((j - burnIn) % thin = 0))).map
        (fun j => gibbsStep^[j] m0) := by
    unfold bayesianFit
    rw [← hiter0]
    have := bayesianFitAux_eq gibbsStep burnIn thin m0 nSteps 0 []
    simpa using this
  constructor
  · rw [heq]
    unfold keptIndices
    congr 2
    apply List.map_congr_left
    intro a _
    omega
  · rw [heq, List.length_map]
    have hlen := keptIndices_length burnIn thin nSteps 0
    rw [hlen]
    have hform := keptCount_formula burnIn thin hthin nSteps 0
    simpa using hform

/-- Witness for C6: with the identity Gibbs step, `burnIn = 100`,
`thin = 10` and `1000` raw steps, the ensemble holds exactly 90 samples. -/
theorem bayesianFit_thinning_witness :
    (bayesianFit (fun m : Unit => m) 100 10 1000 ()).samples.length = 90 := by
  have h := bayesianFit_thinning (fun m : Unit => m) 100 10 1000 ()
    (by norm_num)
  rw [h.2]

/-- Modelled from the spec: the model data consumed by the
`ForwardBackwardEngine` (section 4.3) — hidden transition matrix `P`, initial
distribution `pi0`, and emission probability `E s o` of observing symbol `o`
from hidden state `s`. -/
structure FBModel (n : ℕ) where
  P : Fin n → Fin n → ℚ
  pi0 : Fin n → ℚ
  E : Fin n → ℕ → ℚ

/-- Unscaled forward initialization: `α̂_1(s) = π(s)·e_s(o_1)`. -/
def ufInit {n : ℕ} (M : FBModel n) (o : ℕ) : Fin n → ℚ :=
  fun s => M.pi0 s * M.E s o

/-- Unscaled forward step: `α̂_{t+1}(s') = (Σ_s α_t(s)·P(s,s'))·e_{s'}(o_{t+1})`. -/
def ufStep {n : ℕ} (M : FBModel n) (v : Fin n → ℚ) (o : ℕ) : Fin n → ℚ :=
  fun sn => (∑ s, v s * M.P s sn) * M.E sn o

/-- Unscaled forward recursion over the whole observation sequence
`o :: os`. -/
def uForward {n : ℕ} (M : FBModel n) (o : ℕ) (os : List ℕ) : Fin n → ℚ :=
  os.foldl (ufStep M) (ufInit M o)

/-- Modelled from the spec: scaled forward initialization — the scaling
factor `c_1` is chosen so the scaled `α_1` sums to 1 (section 4.3). -/
def scaledInit {n : ℕ} (M : FBModel n) (o : ℕ) : (Fin n → ℚ) × List ℚ :=
  let ahat := ufInit M o
  let c := ∑ s, ahat s
  (fun s => ahat s / c, [c])

/-- Modelled from the spec: one scaled forward step — apply the recursion to
the scaled variables, then normalize by the new scaling factor `c_t`
(section 4.3). -/
def scaledStep {n : ℕ} (M : FBModel n) (st : (Fin n → ℚ) × List ℚ) (o : ℕ) :
    (Fin n → ℚ) × List ℚ :=
  let ahat := ufStep M st.1 o
  let c := ∑ s, ahat s
  (fun s => ahat s / c, st.2 ++ [c])

/-- Modelled from the spec: the scaled forward recursion of the
`ForwardBackwardEngine`, returning the scaled forward variables and the list
of per-time-step scaling factors `c_t`. -/
def scaledForward {n : ℕ} (M : FBModel n) (o : ℕ) (os : List ℕ) :
    (Fin n → ℚ) × List ℚ :=
  os.foldl (scaledStep M) (scaledInit M o)

/-- All hidden-state paths of a given length — the naive enumeration the
cross-check sums over. -/
def allPaths (n : ℕ) : ℕ → List (List (Fin n))
  | 0 => [[]]
  | T + 1 => (List.finRange n).flatMap (fun s => (allPaths n T).map (fun p => s :: p))

/-- Weight of a hidden path continuation after state `prev`: product of
transition and emission probabilities along the remaining path. -/
def pathWeight {n : ℕ} (M : FBModel n) : Fin n → List (Fin n) → List ℕ → ℚ
  | _, [], [] => 1
  | prev, s :: ss, o :: os => (M.P prev s * M.E s o) * pathWeight M s ss os
  | _, [], _ :: _ => 0
  | _, _ :: _, [] => 0

/-- Unscaled joint probability of a complete hidden path and the observation
sequence. -/
def jointProb {n : ℕ} (M : FBModel n) : List (Fin n) → List ℕ → ℚ
  | s :: ss, o :: os => (M.pi0 s * M.E s o) * pathWeight M s ss os
  | _, _ => 0

/-- The naive total probability of the observations: sum of the unscaled
joint probabilities over all hidden paths. -/
def pathSum {n : ℕ} (M : FBModel n) (obs : List ℕ) : ℚ :=
  ((allPaths n obs.length).map (fun p => jointProb M p obs)).sum

/-- Sum of continuation weights after state `prev` over all paths of the
remaining length. -/
def tailSum {n : ℕ} (M : FBModel n) (prev : Fin n) (os : List ℕ) : ℚ :=
  ((allPaths n os.length).map (fun p => pathWeight M prev p os)).sum

/-- Summing a function over a flattened list of lists equals summing the
per-list sums. -/
theorem sum_map_flatMap {α β : Type} (l : List α) (f : α → List β)
    (g : β → ℚ) :
    ((l.flatMap f).map g).sum = (l.map (fun x => ((f x).map g).sum)).sum := by
  induction l with
  | nil => simp
  | cons a t ih => simp [List.flatMap_cons, ih]

/-- The empty continuation has weight sum 1. -/
theorem tailSum_nil {n : ℕ} (M : FBModel n) (prev : Fin n) :
    tailSum M prev [] = 1 := by
  simp [tailSum, allPaths, pathWeight]

/-- One-step decomposition of the continuation sum. -/
theorem tailSum_cons {n : ℕ} (M : FBModel n) (prev : Fin n) (o : ℕ)
    (os : List ℕ) :
    tailSum M prev (o :: os) =
      ∑ s, (M.P prev s * M.E s o) * tailSum M s os := by
  unfold tailSum
  simp only [List.length_cons]
  rw [show allPaths n (os.length + 1) =
    (List.finRange n).flatMap (fun s => (allPaths n os.length).map (fun p => s :: p))
    from rfl]
  rw [sum_map_flatMap]
  rw [Fin.sum_univ_def]
  congr 1
  apply List.map_congr_left
  intro s _
  rw [List.map_map]
  have hcomp : ((fun p => pathWeight M prev p (o :: os)) ∘ fun p => s :: p) =
      fun p => (M.P prev s * M.E s o) * pathWeight M s p os := by
    funext p
    rfl
  rw [hcomp]
  exact List.sum_map_mul_left (allPaths n os.length) (fun p => pathWeight M s p os)
    (M.P prev s * M.E s o)

/-- One-step decomposition of the naive path sum. -/
theorem pathSum_cons {n : ℕ} (M : FBModel n) (o : ℕ) (os : List ℕ) :
    pathSum M (o :: os) = ∑ s, (M.pi0 s * M.E s o) * tailSum M s os := by
  unfold pathSum
  simp only [List.length_cons]
  rw [show allPaths n (os.length + 1) =
    (List.finRange n).flatMap (fun s => (allPaths n os.length).map (fun p => s :: p))
    from rfl]
  rw [sum_map_flatMap]
  rw [Fin.sum_univ_def]
  congr 1
  apply List.map_congr_left
  intro s _
  rw [List.map_map]
  have hcomp : ((fun p => jointProb M p (o :: os)) ∘ fun p => s :: p) =
      fun p => (M.pi0 s * M.E s o) * pathWeight M s p os := by
    funext p
    rfl
  rw [hcomp]
  exact List.sum_map_mul_left (allPaths n os.length) (fun p => pathWeight M s p os)
    (M.pi0 s * M.E s o)

/-- The total mass of the unscaled forward recursion started from any vector
`v` equals the `v`-weighted sum of continuation weights. -/
theorem foldl_ufStep_total {n : ℕ} (M : FBModel n) :
    ∀ (os : List ℕ) (v : Fin n → ℚ),
      ∑ s, (os.foldl (ufStep M) v) s = ∑ s, v s * tailSum M s os := by
  intro os
  induction os with
  | nil =>
      intro v
      simp [tailSum_nil]
  | cons o os ih =>
      intro v
      rw [List.foldl_cons, ih (ufStep M v o)]
      have hexpand : ∀ sn, (ufStep M v o) sn * tailSum M sn os =
          ∑ s, v s * ((M.P s sn * M.E sn o) * tailSum M sn os) := by
        intro sn
        simp only [ufStep]
        rw [Finset.sum_mul, Finset.sum_mul]
        apply Finset.sum_congr rfl
        intro s _
        ring
      calc ∑ sn, (ufStep M v o) sn * tailSum M sn os
          = ∑ sn, ∑ s, v s * ((M.P s sn * M.E sn o) * tailSum M sn os) := by
            apply Finset.sum_congr rfl
            intro sn _
            exact hexpand sn
        _ = ∑ s, ∑ sn, v s * ((M.P s sn * M.E sn o) * tailSum M sn os) :=
            Finset.sum_comm
        _ = ∑ s, v s * tailSum M s (o :: os) := by
            apply Finset.sum_congr rfl
            intro s _
            rw [tailSum_cons, Finset.mul_sum]

/-- The total mass of the unscaled forward variables equals the naive sum of
joint path probabilities. -/
theorem uForward_total {n : ℕ} (M : FBModel n) (o : ℕ) (os : List ℕ) :
    ∑ s, uForward M o os s = pathSum M (o :: os) := by
  rw [uForward, foldl_ufStep_total M os (ufInit M o), pathSum_cons]
  apply Finset.sum_congr rfl
  intro s _
  rfl

/-- Invariant of the scaled recursion: as long as no scaling factor vanishes,
the product of scaling factors carries the total unscaled mass and the scaled
variables are the unscaled ones divided by that product. -/
theorem scaledForward_invariant {n : ℕ} (M : FBModel n) (o : ℕ) :
    ∀ (os : List ℕ),
      (∀ c ∈ (scaledForward M o os).2, c ≠ 0) →
      (scaledForward M o os).2.prod = ∑ s, uForward M o os s ∧
      (scaledForward M o os).1 =
        fun s => uForward M o os s / (scaledForward M o os).2.prod := by
  intro os
  induction os using List.reverseRecOn with
  | nil =>
      intro _
      constructor
      · simp [scaledForward, scaledInit, uForward]
      · funext s
        simp [scaledForward, scaledInit, uForward]
  | append_singleton os o' ih =>
      intro hc
      have hunf : scaledForward M o (os ++ [o']) =
          scaledStep M (scaledForward M o os) o' := by
        unfold scaledForward
        rw [List.foldl_concat]
      have hcs : (scaledForward M o (os ++ [o'])).2 =
          (scaledForward M o os).2 ++
            [∑ sn, (ufStep M (scaledForward M o os).1 o') sn] := by
        rw [hunf]
        rfl
      have hcpref : ∀ c ∈ (scaledForward M o os).2, c ≠ 0 := by
        intro c hcm
        apply hc c
        rw [hcs]
        exact List.mem_append_left _ hcm
      obtain ⟨ihprod, ihalpha⟩ := ih hcpref
      set p := (scaledForward M o os).2.prod with hp
      have hpne : p ≠ 0 := by
        rw [hp]
        apply List.prod_ne_zero
        intro h0
        exact hcpref 0 h0 rfl
      have hahat : ufStep M (scaledForward M o os).1 o' =
          fun sn => (ufStep M (uForward M o os) o') sn / p := by
        funext sn
        rw [ihalpha]
        simp only [ufStep]
        have hsum : (∑ x, uForward M o os x / p * M.P x sn) =
            (∑ s, uForward M o os s * M.P s sn) / p := by
          rw [Finset.sum_div]
          apply Finset.sum_congr rfl
          intro x _
          rw [div_mul_eq_mul_div]
        rw [hsum, div_mul_eq_mul_div]
      have hcval : (∑ sn, (ufStep M (scaledForward M o os).1 o') sn) =
          (∑ sn, (ufStep M (uForward M o os) o') sn) / p := by
        rw [hahat, ← Finset.sum_div]
      have hufnext : uForward M o (os ++ [o']) = ufStep M (uForward M o os) o' := by
        unfold uForward
        rw [List.foldl_concat]
      have hprodnext : (scaledForward M o (os ++ [o'])).2.prod =
          ∑ sn, (ufStep M (uForward M o os) o') sn := by
        rw [hcs, List.prod_append, List.prod_singleton, ← hp, hcval]
        rw [mul_div_assoc']
        rw [mul_comm]
        rw [mul_div_assoc]
        rw [div_self hpne, mul_one]
      constructor
      · rw [hprodnext, hufnext]
      · funext sn
        have halpha : (scaledForward M o (os ++ [o'])).1 =
            fun t => (ufStep M (scaledForward M o os).1 o') t /
              (∑ u, (ufStep M (scaledForward M o os).1 o') u) := by
          rw [hunf]
          rfl
        rw [halpha, hahat, hufnext, hprodnext]
        simp only
        rw [← Finset.sum_div]
        by_cases hS : (∑ sn, (ufStep M (uForward M o os) o') sn) = 0
        · rw [hS]
          simp
        · field_simp

/-- C3: for every model and observation sequence, as long as no scaling
factor vanishes, the product of the per-time-step scaling factors produced by
the scaled forward recursion equals the naive sum over all hidden paths of
the unscaled joint probabilities.  In exact arithmetic this is precisely the
claimed log identity: the sum of `log c_t` is the log of this product, and
the log-sum-exp over unscaled path probabilities is the log of `pathSum`. -/
theorem scaled_likelihood_eq_pathSum {n : ℕ} (M : FBModel n) (o : ℕ)
    (os : List ℕ) (hc : ∀ c ∈ (scaledForward M o os).2, c ≠ 0) :
    (scaledForward M o os).2.prod = pathSum M (o :: os) := by
  rw [(scaledForward_invariant M o os hc).1, uForward_total]

/-- Witness for C3: the two-state model with all probabilities `1/2` on the
observation sequence `[0, 1]`; both scaling factors are `1/2` and the product
`1/4` equals the sum over the four hidden paths of `(1/2)^4`. -/
theorem scaled_likelihood_eq_pathSum_witness :
    (scaledForward (⟨fun _ _ => 1/2, fun _ => 1/2, fun _ _ => 1/2⟩ : FBModel 2)
        0 [1]).2.prod =
      pathSum (⟨fun _ _ => 1/2, fun _ => 1/2, fun _ _ => 1/2⟩ : FBModel 2)
        [0, 1] := by
  apply scaled_likelihood_eq_pathSum
  intro c hcm
  have hcs : (scaledForward
      (⟨fun _ _ => 1/2, fun _ => 1/2, fun _ _ => 1/2⟩ : FBModel 2) 0 [1]).2 =
      [1/2, 1/4 / (1/4 + 1/4)] := by
    simp only [scaledForward, scaledStep, scaledInit, ufStep, ufInit,
      List.foldl_cons, List.foldl_nil, Fin.sum_univ_two]
    norm_num
  rw [hcs] at hcm
  rcases List.mem_cons.mp hcm with rfl | hcm
  · norm_num
  · simp only [List.mem_singleton] at hcm
    subst hcm
    norm_num

/-- Modelled from the spec: a Discrete output model's full model data — the
emission matrix `Erows` (one row per hidden state, `nSymbols` columns) with
the transition matrix and initial distribution (sections 3 and 4.2). A lookup
outside the stored rows yields probability 0 (all mass vanished). -/
structure DiscreteHMMData (n : ℕ) where
  P : Fin n → Fin n → ℚ
  pi0 : Fin n → ℚ
  Erows : List (List ℚ)
  nSymbols : ℕ

/-- The engine view of the discrete model: emission probability by row and
symbol lookup. -/
def DiscreteHMMData.toFB {n : ℕ} (M : DiscreteHMMData n) : FBModel n :=
  ⟨M.P, M.pi0, fun s o => (M.Erows.getD s.val []).getD o 0⟩

/-- Modelled from the spec: validation that every observation symbol lies in
the declared output alphabet (testable property, section 8). -/
def checkAlphabet (nSymbols : ℕ) (obs : List ℕ) : Bool :=
  obs.all (fun o => decide (o < nSymbols))

/-- Modelled from the spec: likelihood evaluation pipeline for a Discrete
output model — the observation symbols are validated against the declared
alphabet before the forward recursion starts, raising `ConfigurationError`
on an out-of-alphabet symbol (section 8); an empty sequence violates the
`T ≥ 1` shape requirement (section 3) and is also a `ConfigurationError`;
otherwise the scaled forward recursion runs and the likelihood is the
product of the scaling factors. -/
def likelihoodChecked {n : ℕ} (M : DiscreteHMMData n) (obs : List ℕ) :
    Except HmmError ℚ :=
  if checkAlphabet M.nSymbols obs then
    match obs with
    | [] => .error .configuration
    | o :: os => .ok ((scaledForward M.toFB o os).2.prod)
  else .error .configuration

/-- C8: for every Discrete model, an observation sequence containing a symbol
outside the declared alphabet makes the pipeline return `ConfigurationError`
— the forward recursion is never consulted — and on a fully in-alphabet
(non-empty) sequence the pipeline returns exactly the engine's likelihood,
never a silently wrong value. -/
theorem alphabet_check_spec {n : ℕ} (M : DiscreteHMMData n) (obs : List ℕ) :
    ((∃ o ∈ obs, M.nSymbols ≤ o) →
      likelihoodChecked M obs = .error .configuration) ∧
    ((∀ o ∈ obs, o < M.nSymbols) → ∀ (o : ℕ) (os : List ℕ), obs = o :: os →
      likelihoodChecked M obs = .ok ((scaledForward M.toFB o os).2.prod)) := by
  constructor
  · intro hbad
    unfold likelihoodChecked
    rw [if_neg]
    intro hall
    rcases hbad with ⟨o, hmem, hge⟩
    have := List.all_eq_true.mp hall o hmem
    simp only [decide_eq_true_eq] at this
    omega
  · intro hgood o os hobs
    unfold likelihoodChecked
    rw [if_pos]
    · subst hobs
      rfl
    · apply List.all_eq_true.mpr
      intro x hx
      simp only [decide_eq_true_eq]
      exact hgood x hx

/-- Witness for C8: a one-state model with a two-symbol alphabet rejects the
sequence `[5]` with `ConfigurationError` and accepts `[0]` with the engine's
likelihood. -/
theorem alphabet_check_spec_witness :
    likelihoodChecked
        (⟨fun _ _ => 1, fun _ => 1, [[1, 0]], 2⟩ : DiscreteHMMData 1) [5] =
      .error .configuration ∧
    likelihoodChecked
        (⟨fun _ _ => 1, fun _ => 1, [[1, 0]], 2⟩ : DiscreteHMMData 1) [0] =
      .ok ((scaledForward
        (⟨fun _ _ => 1, fun _ => 1, [[1, 0]], 2⟩ : DiscreteHMMData 1).toFB
        0 []).2.prod) := by
  constructor
  · exact (alphabet_check_spec _ [5]).1 ⟨5, by simp, by norm_num⟩
  · exact (alphabet_check_spec _ [0]).2
      (by intro o ho; simp only [List.mem_singleton] at ho; subst ho; decide) 0 [] rfl

/-- Computable matrix inverse over `ℚ` via the adjugate formula; agrees with
Mathlib's `Matrix.inv`. -/
def invQ {m : ℕ} (A : Matrix (Fin m) (Fin m) ℚ) : Matrix (Fin m) (Fin m) ℚ :=
  (A.det)⁻¹ • A.adjugate

/-- The computable inverse agrees with the Mathlib inverse. -/
theorem invQ_eq_inv {m : ℕ} (A : Matrix (Fin m) (Fin m) ℚ) : invQ A = A⁻¹ := by
  rw [Matrix.inv_def, Ring.inverse_eq_inv]
  rfl

/-- Modelled from the spec: the algebraic coarse-graining projection
`P_coarse = (MᵀM)⁻¹ Mᵀ P_micro M` (section 4.5 and notebook cell 12). -/
def coarseProjection {k m : ℕ} (Pmicro : Matrix (Fin k) (Fin k) ℚ)
    (Mem : Matrix (Fin k) (Fin m) ℚ) : Matrix (Fin m) (Fin m) ℚ :=
  invQ (Mem.transpose * Mem) * Mem.transpose * Pmicro * Mem

/-- Clip a rational into `[0,1]`. -/
def clip01 (x : ℚ) : ℚ := max 0 (min 1 x)

/-- Modelled from the spec: entry-wise clipping into `[0,1]` to correct for
numerical drift (section 4.5). -/
def clipMatrix {m : ℕ} (A : Matrix (Fin m) (Fin m) ℚ) :
    Matrix (Fin m) (Fin m) ℚ :=
  fun i j => clip01 (A i j)

/-- Modelled from the spec: row-normalization of a square matrix. -/
def rowNormalizeMat {m : ℕ} (A : Matrix (Fin m) (Fin m) ℚ) :
    Matrix (Fin m) (Fin m) ℚ :=
  fun i j => A i j / ∑ l, A i l

/-- Modelled from the spec: the full coarse-graining initializer output —
project, clip into `[0,1]`, then row-normalize (sections 4.5 and 8). -/
def coarseGrain {k m : ℕ} (Pmicro : Matrix (Fin k) (Fin k) ℚ)
    (Mem : Matrix (Fin k) (Fin m) ℚ) : Matrix (Fin m) (Fin m) ℚ :=
  rowNormalizeMat (clipMatrix (coarseProjection Pmicro Mem))

/-- Row sums of the algebraic projection are exactly 1 when the membership
rows and the micro transition rows sum to 1 and `MᵀM` is invertible. -/
theorem coarseProjection_rowSum {k m : ℕ} (Pmicro : Matrix (Fin k) (Fin k) ℚ)
    (Mem : Matrix (Fin k) (Fin m) ℚ)
    (hM : ∀ i, ∑ j, Mem i j = 1)
    (hP : ∀ i, ∑ j, Pmicro i j = 1)
    (hdet : (Mem.transpose * Mem).det ≠ 0) :
    ∀ i, ∑ j, coarseProjection Pmicro Mem i j = 1 := by
  have hMv : Mem.mulVec 1 = 1 := by
    rw [Matrix.mulVec_one]
    funext i
    exact hM i
  have hPv : Pmicro.mulVec 1 = 1 := by
    rw [Matrix.mulVec_one]
    funext i
    exact hP i
  have hMt : Mem.transpose.mulVec 1 = (Mem.transpose * Mem).mulVec 1 := by
    conv_lhs => rw [← hMv]
    rw [Matrix.mulVec_mulVec]
  have hfull : (coarseProjection Pmicro Mem).mulVec 1 = 1 := by
    unfold coarseProjection
    rw [← Matrix.mulVec_mulVec, ← Matrix.mulVec_mulVec, ← Matrix.mulVec_mulVec]
    rw [hMv, hPv, hMt, Matrix.mulVec_mulVec]
    rw [invQ_eq_inv]
    rw [Matrix.nonsing_inv_mul _ (isUnit_iff_ne_zero.mpr hdet)]
    rw [Matrix.one_mulVec]
  intro i
  have := congrFun hfull i
  rw [Matrix.mulVec_one] at this
  simpa using this

/-- C5: for every membership matrix with unit row sums and invertible `MᵀM`
(full column rank) and every row-stochastic micro transition matrix, the
initializer computes the projection `(MᵀM)⁻¹ Mᵀ P_micro M` and, after
clipping entries into `[0,1]` and row-normalizing, every row of the coarse
transition matrix sums to exactly 1. -/
theorem coarseGrain_rows_sum_one {k m : ℕ} (Pmicro : Matrix (Fin k) (Fin k) ℚ)
    (Mem : Matrix (Fin k) (Fin m) ℚ)
    (hM : ∀ i, ∑ j, Mem i j = 1)
    (hP : ∀ i, ∑ j, Pmicro i j = 1)
    (hdet : (Mem.transpose * Mem).det ≠ 0) :
    coarseProjection Pmicro Mem = (Mem.transpose * Mem)⁻¹ * Mem.transpose * Pmicro * Mem ∧
    ∀ i, ∑ j, coarseGrain Pmicro Mem i j = 1 := by
  constructor
  · unfold coarseProjection
    rw [invQ_eq_inv]
  · intro i
    have hrow := coarseProjection_rowSum Pmicro Mem hM hP hdet i
    have hex : ∃ j, 0 < coarseProjection Pmicro Mem i j := by
      by_contra hno
      push_neg at hno
      have : (∑ j, coarseProjection Pmicro Mem i j) ≤ 0 :=
        Finset.sum_nonpos (fun j _ => hno j)
      rw [hrow] at this
      norm_num at this
    have hclip_nonneg : ∀ j, 0 ≤ clipMatrix (coarseProjection Pmicro Mem) i j := by
      intro j
      exact le_max_left 0 _
    have hS : 0 < ∑ j, clipMatrix (coarseProjection Pmicro Mem) i j := by
      obtain ⟨j0, hj0⟩ := hex
      apply Finset.sum_pos'
      · intro j _
        exact hclip_nonneg j
      · refine ⟨j0, Finset.mem_univ j0, ?_⟩
        unfold clipMatrix clip01
        rw [lt_max_iff]
        right
        exact lt_min one_pos hj0
    unfold coarseGrain rowNormalizeMat
    rw [← Finset.sum_div]
    exact div_self (ne_of_gt hS)

/-- Witness for C5: `k = 2` micro states, `m = 1` hidden state, constant
membership column and the uniform micro transition matrix; the single coarse
row sums to 1. -/
theorem coarseGrain_rows_sum_one_witness :
    ∑ j, coarseGrain (fun _ _ => (1 : ℚ) / 2)
      (fun _ _ => (1 : ℚ) : Matrix (Fin 2) (Fin 1) ℚ) 0 j = 1 := by
  have h := coarseGrain_rows_sum_one (fun _ _ => (1 : ℚ) / 2)
    (fun _ _ => (1 : ℚ) : Matrix (Fin 2) (Fin 1) ℚ)
    (by intro i; simp)
    (by intro i; rw [Fin.sum_univ_two]; norm_num)
    (by
      rw [Matrix.det_fin_one, Matrix.mul_apply, Fin.sum_univ_two]
      simp [Matrix.transpose_apply])
  exact h.2 0

/-- Element-wise mean over the sampled values. -/
def meanQ (vals : List ℚ) : ℚ := vals.sum / (vals.length : ℚ)

/-- Sampled values in non-decreasing order. -/
def sortedQ (vals : List ℚ) : List ℚ :=
  vals.mergeSort (fun a b => decide (a ≤ b))

/-- Order-statistic index for cumulative level `q` among `len` samples:
`⌊q·(len−1)⌋`. -/
def percentileIdx (q : ℚ) (len : ℕ) : ℕ :=
  (⌊q * ((len - 1 : ℕ) : ℚ)⌋).toNat

/-- Modelled from the spec: the empirical lower confidence bound at
confidence `conf` via order statistics — the `(1−conf)/2` percentile of the
sampled values (section 4.7). -/
def percLo (conf : ℚ) (vals : List ℚ) : ℚ :=
  (sortedQ vals).getD (percentileIdx ((1 - conf) / 2) vals.length) 0

/-- Modelled from the spec: the empirical upper confidence bound — the
`(1+conf)/2` percentile of the sampled values (section 4.7). -/
def percHi (conf : ℚ) (vals : List ℚ) : ℚ :=
  (sortedQ vals).getD (percentileIdx ((1 + conf) / 2) vals.length) 0

/-- Modelled from the spec: the fixed registry of named extractors per model
type used to resolve a statistics-query path (section 4.7). -/
def Registry (α : Type) : Type := List (String × (α → List ℚ))

/-- Resolve a path in the registry. -/
def resolvePath {α : Type} (reg : Registry α) (path : String) :
    Option (α → List ℚ) :=
  (reg.find? (fun e => e.1 == path)).map Prod.snd

/-- Modelled from the spec: core of `gatherStatistics` — stack the per-sample
arrays (flattened to fixed length), check shapes agree, and per element
compute the mean and the lower/upper percentile bounds (section 4.7). -/
def gatherCore (arrays : List (List ℚ)) (conf : ℚ) :
    Except HmmError (List ℚ × List ℚ × List ℚ) :=
  match arrays with
  | [] => .error .configuration
  | a0 :: rest =>
      if rest.all (fun arr => arr.length == a0.length) then
        .ok ((List.range a0.length).map
              (fun e => meanQ ((a0 :: rest).map (fun arr => arr.getD e 0))),
             (List.range a0.length).map
              (fun e => percLo conf ((a0 :: rest).map (fun arr => arr.getD e 0))),
             (List.range a0.length).map
              (fun e => percHi conf ((a0 :: rest).map (fun arr => arr.getD e 0))))
      else .error .shapeMismatch

/-- Modelled from the spec: `gatherStatistics(path, confidence)` — resolve
the path against the registry (`UnknownQuantityError` when it does not
resolve), extract the quantity from every sample and aggregate
(section 4.7, notebook cell 24). -/
def gatherStatistics {α : Type} (reg : Registry α) (ens : PosteriorEnsemble α)
    (path : String) (conf : ℚ) :
    Except HmmError (List ℚ × List ℚ × List ℚ) :=
  match resolvePath reg path with
  | none => .error .unknownQuantity
  | some extract => gatherCore (ens.samples.map extract) conf

/-- Sorting produces a sorted list. -/
theorem sortedQ_sorted (vals : List ℚ) :
    List.Sorted (fun a b : ℚ => a ≤ b) (sortedQ vals) := by
  have h := @List.sorted_mergeSort ℚ (fun a b => decide (a ≤ b))
    (by intro a b c hab hbc
        simp only [decide_eq_true_eq] at hab hbc ⊢
        exact le_trans hab hbc)
    (by intro a b
        simpa using le_total a b)
    vals
  exact h.imp (by intro a b hab; simpa using hab)

/-- Indexing a sorted list of rationals is monotone. -/
theorem getD_mono_of_sorted {l : List ℚ}
    (hs : List.Sorted (fun a b : ℚ => a ≤ b) l) {i j : ℕ}
    (hij : i ≤ j) (hj : j < l.length) : l.getD i 0 ≤ l.getD j 0 := by
  have hi : i < l.length := lt_of_le_of_lt hij hj
  rw [List.getD_eq_getElem l 0 hi, List.getD_eq_getElem l 0 hj]
  have := @List.Sorted.rel_get_of_le ℚ (fun a b : ℚ => a ≤ b) ⟨le_refl⟩ l hs
    ⟨i, hi⟩ ⟨j, hj⟩ hij
  simpa [List.get_eq_getElem] using this

/-- The percentile index is monotone in its level. -/
theorem percentileIdx_mono {q r : ℚ} (h : q ≤ r) (len : ℕ) :
    percentileIdx q len ≤ percentileIdx r len := by
  apply Int.toNat_le_toNat
  apply Int.floor_mono
  apply mul_le_mul_of_nonneg_right h
  positivity

/-- The percentile index stays in range for levels at most 1. -/
theorem percentileIdx_lt {q : ℚ} (hq : q ≤ 1) (len : ℕ) (hlen : 0 < len) :
    percentileIdx q len < len := by
  have h1 : q * ((len - 1 : ℕ) : ℚ) ≤ ((len - 1 : ℕ) : ℚ) := by
    calc q * ((len - 1 : ℕ) : ℚ) ≤ 1 * ((len - 1 : ℕ) : ℚ) :=
          mul_le_mul_of_nonneg_right hq (by positivity)
      _ = ((len - 1 : ℕ) : ℚ) := one_mul _
  have h2 : ⌊q * ((len - 1 : ℕ) : ℚ)⌋ ≤ ((len - 1 : ℕ) : ℤ) := by
    calc ⌊q * ((len - 1 : ℕ) : ℚ)⌋ ≤ ⌊((len - 1 : ℕ) : ℚ)⌋ := Int.floor_mono h1
      _ = ((len - 1 : ℕ) : ℤ) := Int.floor_natCast _
  have h3 : percentileIdx q len ≤ len - 1 := by
    unfold percentileIdx
    calc (⌊q * ((len - 1 : ℕ) : ℚ)⌋).toNat ≤ ((len - 1 : ℕ) : ℤ).toNat :=
          Int.toNat_le_toNat h2
      _ = len - 1 := Int.toNat_natCast _
  omega

/-- The lower percentile bound never exceeds the upper percentile bound. -/
theorem percLo_le_percHi {conf : ℚ} (h0 : 0 ≤ conf) (h1 : conf ≤ 1)
    {vals : List ℚ} (hne : vals ≠ []) :
    percLo conf vals ≤ percHi conf vals := by
  have hlen : 0 < vals.length := List.length_pos.mpr hne
  have hslen : (sortedQ vals).length = vals.length :=
    List.length_mergeSort vals
  apply getD_mono_of_sorted (sortedQ_sorted vals)
  · exact percentileIdx_mono (by linarith) vals.length
  · rw [hslen]
    exact percentileIdx_lt (by linarith) vals.length hlen

/-- C7 counterexample: with the identity extractor, the five-sample ensemble
`[-10], [1], [1], [1], [1]` at confidence `1/2` yields mean `-6/5` but lower
percentile bound `1` — the percentile method does not guarantee
`lowerBound ≤ mean`. -/
theorem gather_bounds_counterexample :
    gatherStatistics [("q", fun x : List ℚ => x)]
        ⟨[], [[-10], [1], [1], [1], [1]]⟩ "q" (1 / 2) =
      .ok ([-6 / 5], [1], [1]) ∧ ¬ ((1 : ℚ) ≤ -6 / 5) := by
  constructor
  · norm_num [gatherStatistics, resolvePath, gatherCore, meanQ, percLo,
      percHi, sortedQ, percentileIdx, List.mergeSort, List.find?,
      List.range_succ, List.range_zero, List.merge, List.getD,
      Int.toNat_ofNat]
    rfl
  · norm_num

/-- C7 (amended): for every registry, ensemble, resolving path and confidence
level in `[0,1]`, a successful `gatherStatistics` returns mean, lower-bound
and upper-bound arrays of equal length (shaped like the queried quantity),
with `lowerBound ≤ upperBound` element-wise; the element-wise mean, however,
may fall outside the percentile interval for skewed ensembles. -/
theorem gatherStatistics_bounds {α : Type} (reg : Registry α)
    (ens : PosteriorEnsemble α) (path : String) (conf : ℚ)
    (h0 : 0 ≤ conf) (h1 : conf ≤ 1) (means los his : List ℚ)
    (hok : gatherStatistics reg ens path conf = .ok (means, los, his)) :
    means.length = los.length ∧ los.length = his.length ∧
    ∀ e < means.length, los.getD e 0 ≤ his.getD e 0 := by
  cases hres : resolvePath reg path with
  | none =>
      unfold gatherStatistics at hok
      rw [hres] at hok
      cases hok
  | some extract =>
      have hok2 : gatherCore (ens.samples.map extract) conf =
          .ok (means, los, his) := by
        unfold gatherStatistics at hok
        rw [hres] at hok
        exact hok
      rcases harr : ens.samples.map extract with _ | ⟨a0, rest⟩
      case nil =>
          rw [harr] at hok2
          cases hok2
      case cons =>
          rw [harr] at hok2
          simp only [gatherCore] at hok2
          by_cases hall : (rest.all (fun arr => arr.length == a0.length)) = true
          · rw [if_pos hall] at hok2
            simp only [Except.ok.injEq, Prod.mk.injEq] at hok2
            obtain ⟨hm, hl, hh⟩ := hok2
            subst hm
            subst hl
            subst hh
            refine ⟨by simp, by simp, ?_⟩
            intro e he
            simp only [List.length_map, List.length_range] at he
            have hgetl : ((List.range a0.length).map
                (fun e => percLo conf ((a0 :: rest).map
                  (fun arr => arr.getD e 0)))).getD e 0 =
                percLo conf ((a0 :: rest).map (fun arr => arr.getD e 0)) := by
              rw [List.getD_eq_getElem _ _ (by simpa using he)]
              rw [List.getElem_map, List.getElem_range]
            have hgeth : ((List.range a0.length).map
                (fun e => percHi conf ((a0 :: rest).map
                  (fun arr => arr.getD e 0)))).getD e 0 =
                percHi conf ((a0 :: rest).map (fun arr => arr.getD e 0)) := by
              rw [List.getD_eq_getElem _ _ (by simpa using he)]
              rw [List.getElem_map, List.getElem_range]
            rw [hgetl, hgeth]
            apply percLo_le_percHi h0 h1
            simp
          · rw [if_neg hall] at hok2
            cases hok2

/-- Witness for C7 (amended): the two-sample ensemble `[1], [2]` at full
confidence has lower bound 1, mean 3/2 and upper bound 2, and the bounds are
ordered. -/
theorem gatherStatistics_bounds_witness :
    [(1 : ℚ)].getD 0 0 ≤ [(2 : ℚ)].getD 0 0 := by
  have hok : gatherStatistics [("q", fun x : List ℚ => x)]
      ⟨[], [[1], [2]]⟩ "q" 1 = .ok ([3 / 2], [1], [2]) := by
    norm_num [gatherStatistics, resolvePath, gatherCore, meanQ, percLo,
      percHi, sortedQ, percentileIdx, List.mergeSort, List.find?,
      List.range_succ, List.range_zero, List.merge, List.getD,
      Int.toNat_ofNat]
  have h := gatherStatistics_bounds [("q", fun x : List ℚ => x)]
    ⟨[], [[1], [2]]⟩ "q" 1 (by norm_num) (by norm_num)
    [3 / 2] [1] [2] hok
  exact h.2.2 0 (by norm_num)
